import Mathlib

/-!
Verification development for the pypi-dependency-analysis repository.

The Python source is shallowly embedded:

* networkx `DiGraph` objects become insertion-ordered association lists from a
  node name to its ordered successor list (mirroring the dict-of-dicts layout);
* `nx.bfs_edges` becomes a fuel-indexed worklist traversal whose fuel is large
  enough to cover every dequeue the real traversal performs;
* polars dataframe operations (`filter`, `explode`, `str.extract`) become the
  corresponding list transformations on records;
* Python exceptions become `Except` results.
-/

namespace PyPI

/-- Association-list lookup used to model Python/networkx dict access keyed by
strings (first matching key wins, as dict keys are unique). -/
def assocFind {α : Type} : List (String × α) → String → Option α
  | [], _ => none
  | (a, x) :: rest, k => if a = k then some x else assocFind rest k

/-- Association-list update used to model Python dict item assignment: replaces
the first binding of the key, or appends a fresh binding at the end (dicts are
insertion ordered). -/
def assocSet {α : Type} : List (String × α) → String → α → List (String × α)
  | [], k, v => [(k, v)]
  | (a, x) :: rest, k, v => if a = k then (k, v) :: rest else (a, x) :: assocSet rest k v

/-- Directed graph modelled after networkx DiGraph: an insertion-ordered map
from each node to its ordered successor list. -/
structure DiGraph where
  adj : List (String × List String)
deriving DecidableEq, Repr

/-- Node membership, modelling Python's `n in G`. -/
def hasNode (g : DiGraph) (n : String) : Bool :=
  (g.adj.map Prod.fst).contains n

/-- Successor list of a node, modelling `G.neighbors(n)` / `G.adj[n]` (empty
when the node is absent; callers that must fail on absent nodes check
`hasNode` separately, as networkx raises there). -/
def succList (g : DiGraph) (n : String) : List String :=
  (assocFind g.adj n).getD []

/-- Model of `G.add_node(n)`: inserts the node with no successors when absent,
otherwise leaves the graph unchanged. -/
def addNode (g : DiGraph) (n : String) : DiGraph :=
  if hasNode g n then g else ⟨g.adj ++ [(n, [])]⟩

/-- Helper for `addEdge`: appends `v` to the successor list of the first entry
keyed `u` unless already present (networkx stores successors in a dict, so
duplicate edges collapse). -/
def addSucc : List (String × List String) → String → String → List (String × List String)
  | [], _, _ => []
  | (a, s) :: rest, u, v =>
    if a = u then (a, if s.contains v then s else s ++ [v]) :: rest
    else (a, s) :: addSucc rest u v

/-- Model of `G.add_edge(u, v)`: both endpoints become nodes if absent, then
`v` is recorded as a successor of `u`. -/
def addEdge (g : DiGraph) (u v : String) : DiGraph :=
  ⟨addSucc (addNode (addNode g u) v).adj u v⟩

/-- Edge list of the graph in networkx iteration order (by source node
insertion order, then successor insertion order). -/
def edgeList (g : DiGraph) : List (String × String) :=
  g.adj.flatMap (fun p => p.2.map (fun v => (p.1, v)))

/-- Model of `G.reverse(copy=True)`: a fresh graph with the same node set
(`add_nodes_from`) into which every edge is inserted reversed
(`add_edges_from`). -/
def reverse (g : DiGraph) : DiGraph :=
  (edgeList g).foldl (fun h e => addEdge h e.2 e.1) ⟨g.adj.map (fun p => (p.1, []))⟩

/-- Well-formedness invariants the networkx dict-of-dicts representation
guarantees: node keys are unique, successor lists are duplicate-free, and
every successor is itself a node of the graph. -/
def wellFormed (g : DiGraph) : Prop :=
  (g.adj.map Prod.fst).Nodup ∧
  (∀ p ∈ g.adj, p.2.Nodup) ∧
  (∀ p ∈ g.adj, ∀ v ∈ p.2, v ∈ g.adj.map Prod.fst)

instance (g : DiGraph) : Decidable (wellFormed g) := by
  unfold wellFormed; infer_instance

/-- Every string occurring in the graph representation, used to size the fuel
of the breadth-first traversal. -/
def mentioned (g : DiGraph) : List String :=
  g.adj.map Prod.fst ++ g.adj.flatMap Prod.snd

/-- Fuel-indexed worklist form of `nx.generic_bfs_edges`: the head of the
queue is expanded, its not-yet-visited successors are discovered in adjacency
order, enqueued and appended to the output. One unit of fuel pays for one
dequeue; `nx.bfs_edges` performs at most one dequeue per ever-enqueued node. -/
def bfsFuel (g : DiGraph) : Nat → List String → List String → List String
  | 0, _, _ => []
  | _ + 1, [], _ => []
  | fuel + 1, u :: rest, visited =>
    let newly := (succList g u).filter (fun v => !visited.contains v)
    newly ++ bfsFuel g fuel (rest ++ newly) (visited ++ newly)

/-- Discovery list of `nx.bfs_edges(g, source)` (the child component of each
yielded edge): the source starts out visited, so it is never yielded. -/
def bfsResult (g : DiGraph) (source : String) : List String :=
  bfsFuel g ((mentioned g).length + 1) [source] [source]

/-- Model of `resolve_dependency` in src/exploration.py: the list
`[v for _, v in nx.bfs_edges(graph, package_name)]`. networkx raises
NetworkXError when the start node is absent, modelled as `Except.error`. -/
def resolve_dependency (g : DiGraph) (package_name : String) : Except String (List String) :=
  if hasNode g package_name then Except.ok (bfsResult g package_name)
  else Except.error ("The node " ++ package_name ++ " is not in the graph.")

/-- Character class of the regex `[\w_-]` in `extract_dependencies`
(src/utils.py), with `\w` modelled on its ASCII range as PyPI names are
ASCII. -/
def isNameChar (c : Char) : Bool :=
  c.isAlpha || c.isDigit || c == '_' || c == '-'

/-- Model of polars `str.extract(r"([\w_-]+)", 1)`: the regex is unanchored,
so this returns the first maximal run of name characters occurring anywhere in
the string, or null when no character of the class occurs. -/
def extractName (s : String) : Option String :=
  match s.data.dropWhile (fun c => !isNameChar c) with
  | [] => none
  | c :: cs => some (String.mk ((c :: cs).takeWhile isNameChar))

/-- Row of the package-metadata snapshot consumed by the notebook (fields used
by the embedded pipeline). -/
structure Record where
  name : String
  version : String
  upload_time : Int
  size : Option Nat
  requires_dist : Option (List String)
deriving DecidableEq, Repr

/-- Model of polars `explode("requires_dist")`: a null or empty list yields a
single row with a null requirement, otherwise one row per requirement
string. -/
def explodeRequires (rows : List Record) : List (String × Option String) :=
  rows.flatMap (fun r =>
    match r.requires_dist with
    | none => [(r.name, none)]
    | some [] => [(r.name, none)]
    | some (q :: qs) => (q :: qs).map (fun s => (r.name, some s)))

/-- Model of `extract_dependencies` in src/utils.py: explode the requirement
lists, then replace each requirement string by the regex extraction (null
stays null). -/
def extract_dependencies (rows : List Record) : List (String × Option String) :=
  (explodeRequires rows).map (fun p => (p.1, p.2.bind extractName))

/-- Model of `build_dependency_graph` in src/utils.py: rows with a null
dependency add an isolated node, the others add a directed edge. -/
def build_dependency_graph (rows : List (String × Option String)) : DiGraph :=
  rows.foldl
    (fun g p =>
      match p.2 with
      | none => addNode g p.1
      | some d => addEdge g p.1 d)
    ⟨[]⟩

/-- Model of the `package_metadata` cell in src/exploration.py: keep exactly
the rows whose upload time equals the maximum upload time among rows of the
same name (`filter(col.upload_time == col.upload_time.max().over("name"))`). -/
def package_metadata (rows : List Record) : List Record :=
  rows.filter (fun r =>
    ((rows.filter (fun q => q.name == r.name)).map (fun q => q.upload_time)).max?
      == some r.upload_time)

/-- Reachability along directed edges (zero or more steps), the specification
notion of "path" used to judge the traversal code. -/
inductive Reaches (g : DiGraph) : String → String → Prop
  | refl (u : String) : Reaches g u u
  | tail {u v w : String} : Reaches g u v → w ∈ succList g v → Reaches g u w

/-- Reachability through at least one edge, the notion of a node lying on a
cycle through itself when the endpoints coincide. -/
def ReachesPlus (g : DiGraph) (u w : String) : Prop :=
  ∃ v, v ∈ succList g u ∧ Reaches g v w

/-- Pure three-cycle A→B, B→C, C→A, the scenario graph named by the spec. -/
def cycleGraph : DiGraph :=
  addEdge (addEdge (addEdge ⟨[]⟩ "A" "B") "B" "C") "C" "A"

/-- Graph consisting of the single self-loop edge A→A. -/
def selfLoopGraph : DiGraph :=
  addEdge ⟨[]⟩ "A" "A"

/-- Modelled from the spec: no Aggregator exists in src (src/exploration.py only
computes the per-node reachability lists), so the dependency→size join of spec
section 4.4 is taken from the spec's words: the size of the latest record of a
name, 0 when the name has no record or a null size. -/
def sizeOfName (rows : List Record) (n : String) : Nat :=
  match rows.find? (fun r => r.name == n) with
  | some r => r.size.getD 0
  | none => 0

/-- Modelled from the spec: the Aggregator's total_size of spec section 4.4 is
absent from src; per the spec's words it is the package's own size (0 when
absent) plus the sum of the known sizes of every package in its transitive
depends_on set, a dangling or size-less name contributing 0. -/
def total_size (rows : List Record) (g : DiGraph) (n : String) : Nat :=
  sizeOfName rows n +
    (((resolve_dependency g n).toOption.getD []).map (sizeOfName rows)).sum

/-- Dependency record of the version-solver prototype in src/exploration.py;
parse_constraint is modelled as keeping the constraint string as written. -/
structure SolverDep where
  name : String
  constraint : String
deriving DecidableEq, Repr

/-- Model of the PackageSource class of src/exploration.py: root dependency
list plus the _packages dict-of-dicts keyed name, then version (Version.parse
is modelled as the identity on version strings). -/
structure PackageSource where
  root_dependencies : List SolverDep
  packages : List (String × List (String × List SolverDep))
deriving DecidableEq, Repr

/-- Versions currently stored under a name (the inner dict of _packages,
empty when the name is absent). -/
def versionsOf (src : PackageSource) (name : String) :
    List (String × List SolverDep) :=
  (assocFind src.packages name).getD []

/-- Model of PackageSource.add in src/exploration.py: creates the name entry
when missing, raises ValueError when the (name, version) pair already exists,
otherwise stores the dependency list under the pair. -/
def PackageSource.add (src : PackageSource) (name version : String)
    (deps : List (String × String)) : Except String PackageSource :=
  if ((versionsOf src name).map Prod.fst).contains version then
    Except.error (name ++ " (" ++ version ++ ") already exists")
  else
    Except.ok ⟨src.root_dependencies,
      assocSet src.packages name
        (versionsOf src name ++ [(version, deps.map (fun d => ⟨d.1, d.2⟩))])⟩

/-- Character class [A-Za-z0-9_-] exactly as the spec's extraction rule words
it. -/
def isSpecNameChar (c : Char) : Bool :=
  ('A' ≤ c && c ≤ 'Z') || ('a' ≤ c && c ≤ 'z') || ('0' ≤ c && c ≤ '9') ||
    c == '_' || c == '-'

/-- Extraction rule following the spec's words, for comparison with the code:
the longest run of class characters at the START of the requirement string,
and no name when the string is empty or starts outside the class. -/
def spec_extract_name (s : String) : Option String :=
  match s.data.takeWhile isSpecNameChar with
  | [] => none
  | c :: cs => some (String.mk (c :: cs))

/-- Separator class [-_.] of _normalize_package_name in
src/pypi-reverse-dependencies/graph.py. -/
def isSepChar (c : Char) : Bool :=
  c == '-' || c == '_' || c == '.'

/-- Model of re.sub(r"[-_.]+", "-", ·): every maximal run of separator
characters is replaced by a single hyphen. -/
def collapseSeps : List Char → List Char
  | [] => []
  | [c] => if isSepChar c then ['-'] else [c]
  | c :: d :: rest =>
    if isSepChar c then
      if isSepChar d then collapseSeps (d :: rest)
      else '-' :: collapseSeps (d :: rest)
    else c :: collapseSeps (d :: rest)

/-- Model of _normalize_package_name: lower-case the name (Python str.lower,
modelled on the ASCII range PyPI names use), then collapse separator runs. -/
def normalizePackageName (s : String) : String :=
  String.mk (collapseSeps (s.data.map Char.toLower))

/-- Split class [<>=!;[ ] of _extract_package_name_from_requirement. -/
def isSplitChar (c : Char) : Bool :=
  c == '<' || c == '>' || c == '=' || c == '!' || c == ';' || c == '['

/-- Model of Python str.strip(): whitespace removed from both ends. -/
def stripWS (l : List Char) : List Char :=
  ((l.dropWhile Char.isWhitespace).reverse.dropWhile Char.isWhitespace).reverse

/-- Model of _extract_package_name_from_requirement: the first re.split field
over the split class, stripped, then normalized. -/
def extractPackageNameFromRequirement (r : String) : String :=
  normalizePackageName
    (String.mk (stripWS (r.data.takeWhile (fun c => !isSplitChar c))))

/-- Fields of one parsed PyPI metadata JSON file that create_dependency_graph
reads (the directory scan and JSON parsing are modelled as the list of
successfully parsed records). -/
structure PkgMeta where
  name : Option String
  requires_dist : Option (List String)
deriving DecidableEq, Repr

/-- Deduplication keeping first occurrences, modelling the Python set built in
_extract_dependencies (membership-equal to the set). -/
def dedupFirstAux : List String → List String → List String
  | _, [] => []
  | seen, x :: xs =>
    if x ∈ seen then dedupFirstAux seen xs else x :: dedupFirstAux (x :: seen) xs

/-- Entry point of the first-occurrence deduplication. -/
def dedupFirst (l : List String) : List String :=
  dedupFirstAux [] l

/-- Model of _extract_dependencies in src/pypi-reverse-dependencies/graph.py:
empty or null requires_dist yields no dependencies; otherwise the non-empty
requirement strings are mapped through the name extraction, empty results are
dropped and the rest collected as a set. -/
def extractDepsOfMeta (m : PkgMeta) : List String :=
  match m.requires_dist with
  | none => []
  | some reqs =>
    dedupFirst (((reqs.filter (fun s => !(s == ""))).map
      extractPackageNameFromRequirement).filter (fun s => !(s == "")))

/-- Per-record body of the create_dependency_graph loop: records without a
name are skipped, the normalized name is added as a node, and every extracted
dependency is added as a node and as an edge target. -/
def addMetaToGraph (net : DiGraph) (m : PkgMeta) : DiGraph :=
  match m.name with
  | none => net
  | some pname =>
    if pname = "" then net
    else
      (extractDepsOfMeta m).foldl
        (fun net dep => addEdge (addNode net dep) (normalizePackageName pname) dep)
        (addNode net (normalizePackageName pname))

/-- Model of create_dependency_graph in src/pypi-reverse-dependencies/graph.py
over the list of parsed metadata records. -/
def create_dependency_graph (metas : List PkgMeta) : DiGraph :=
  metas.foldl addMetaToGraph ⟨[]⟩

/-- Shape of every re.sub output: no separator other than isolated hyphens. -/
inductive Collapsed : List Char → Prop
  | nil : Collapsed []
  | cons_plain {c : Char} {l : List Char} :
      isSepChar c = false → Collapsed l → Collapsed (c :: l)
  | dash_nil : Collapsed ['-']
  | dash_cons {c : Char} {l : List Char} :
      isSepChar c = false → Collapsed (c :: l) → Collapsed ('-' :: c :: l)

theorem Reaches.head {g : DiGraph} {u v w : String}
    (hedge : v ∈ succList g u) (h : Reaches g v w) : Reaches g u w := by
  induction h with
  | refl => exact Reaches.tail (Reaches.refl u) hedge
  | tail _ hvw ih => exact Reaches.tail ih hvw

theorem reachesPlus_of_reaches_ne {g : DiGraph} {u w : String}
    (h : Reaches g u w) (hne : w ≠ u) : ReachesPlus g u w := by
  induction h with
  | refl => exact absurd rfl hne
  | tail hr hedge ih =>
    rename_i v w'
    by_cases hvu : v = u
    · subst hvu
      exact ⟨w', hedge, Reaches.refl w'⟩
    · obtain ⟨z, hz, hzv⟩ := ih hvu
      exact ⟨z, hz, Reaches.tail hzv hedge⟩

theorem reaches_of_reachesPlus {g : DiGraph} {u w : String}
    (h : ReachesPlus g u w) : Reaches g u w := by
  obtain ⟨v, hv, hvw⟩ := h
  exact Reaches.head hv hvw

theorem hasNode_iff {g : DiGraph} {n : String} :
    hasNode g n = true ↔ n ∈ g.adj.map Prod.fst := by
  simp [hasNode, List.contains]

theorem assocFind_append {α : Type} (l₁ l₂ : List (String × α)) (a : String) :
    assocFind (l₁ ++ l₂) a =
      match assocFind l₁ a with
      | some x => some x
      | none => assocFind l₂ a := by
  induction l₁ with
  | nil => rfl
  | cons p rest ih =>
    simp only [List.cons_append, assocFind]
    split
    · rfl
    · exact ih

theorem assocFind_eq_none {α : Type} {l : List (String × α)} {a : String}
    (h : a ∉ l.map Prod.fst) : assocFind l a = none := by
  induction l with
  | nil => rfl
  | cons p rest ih =>
    obtain ⟨b, x⟩ := p
    simp only [List.map_cons, List.mem_cons, not_or] at h
    simp only [assocFind, if_neg (fun he : b = a => h.1 he.symm)]
    exact ih h.2

theorem succList_addNode (g : DiGraph) (m a : String) :
    succList (addNode g m) a = succList g a := by
  unfold addNode
  split
  · rfl
  · rename_i hm
    unfold succList
    rw [show (⟨g.adj ++ [(m, [])]⟩ : DiGraph).adj = g.adj ++ [(m, [])] from rfl,
      assocFind_append]
    cases hfind : assocFind g.adj a with
    | some x => rfl
    | none =>
      simp only [assocFind]
      by_cases ham : m = a
      · subst ham
        simp
      · simp [ham]

theorem map_fst_addSucc (adj : List (String × List String)) (u v : String) :
    (addSucc adj u v).map Prod.fst = adj.map Prod.fst := by
  induction adj with
  | nil => rfl
  | cons p rest ih =>
    obtain ⟨b, s⟩ := p
    simp only [addSucc]
    split
    · rename_i hbu
      simp [hbu]
    · simp [ih]

theorem map_fst_addNode (g : DiGraph) (m : String) :
    (addNode g m).adj.map Prod.fst =
      if hasNode g m then g.adj.map Prod.fst else g.adj.map Prod.fst ++ [m] := by
  unfold addNode
  split <;> simp_all

theorem hasNode_addNode_iff (g : DiGraph) (m n : String) :
    hasNode (addNode g m) n = true ↔ (n = m ∨ hasNode g n = true) := by
  unfold addNode
  by_cases hm : hasNode g m
  · simp only [if_pos hm]
    constructor
    · exact Or.inr
    · rintro (rfl | h)
      · exact hm
      · exact h
  · simp only [if_neg hm]
    rw [hasNode_iff, hasNode_iff]
    show n ∈ (g.adj ++ [(m, [])]).map Prod.fst ↔ _
    simp only [List.map_append, List.map_cons, List.map_nil, List.mem_append,
      List.mem_singleton]
    tauto

theorem map_fst_addEdge (g : DiGraph) (u v : String) :
    (addEdge g u v).adj.map Prod.fst = (addNode (addNode g u) v).adj.map Prod.fst :=
  map_fst_addSucc _ u v

theorem hasNode_addEdge_iff (g : DiGraph) (u v n : String) :
    hasNode (addEdge g u v) n = true ↔ (n = u ∨ n = v ∨ hasNode g n = true) := by
  rw [hasNode_iff, map_fst_addEdge, ← hasNode_iff, hasNode_addNode_iff,
    hasNode_addNode_iff]
  tauto

theorem mem_succ_addSucc (adj : List (String × List String)) (u v a x : String) :
    x ∈ (assocFind (addSucc adj u v) a).getD [] ↔
      (x ∈ (assocFind adj a).getD [] ∨ (a = u ∧ x = v ∧ u ∈ adj.map Prod.fst)) := by
  induction adj with
  | nil => simp [addSucc, assocFind]
  | cons q rest ih =>
    obtain ⟨b, s⟩ := q
    simp only [addSucc]
    by_cases hbu : b = u
    · rw [if_pos hbu]
      simp only [assocFind]
      by_cases hba : b = a
      · rw [if_pos hba, if_pos hba]
        simp only [Option.getD_some, List.map_cons, List.mem_cons]
        have hau : a = u := hba ▸ hbu
        have hub : u = b := hbu.symm
        by_cases hv : s.contains v
        · rw [if_pos hv]
          have hvs : v ∈ s := by simpa [List.contains] using hv
          constructor
          · exact fun h => Or.inl h
          · rintro (h | ⟨-, rfl, -⟩)
            · exact h
            · exact hvs
        · rw [if_neg hv]
          simp only [List.mem_append, List.mem_singleton]
          constructor
          · rintro (h | h)
            · exact Or.inl h
            · exact Or.inr ⟨hau, h, Or.inl hub⟩
          · rintro (h | ⟨-, rfl, -⟩)
            · exact Or.inl h
            · exact Or.inr rfl
      · rw [if_neg hba, if_neg hba]
        have hnau : ¬a = u := fun hx => hba (hbu.trans hx.symm)
        constructor
        · exact fun h => Or.inl h
        · rintro (h | ⟨hau, -, -⟩)
          · exact h
          · exact absurd hau hnau
    · rw [if_neg hbu]
      simp only [assocFind]
      by_cases hba : b = a
      · rw [if_pos hba, if_pos hba]
        have hnau : ¬a = u := fun hx => hbu (hba.trans hx)
        constructor
        · exact fun h => Or.inl h
        · rintro (h | ⟨hau, -, -⟩)
          · exact h
          · exact absurd hau hnau
      · rw [if_neg hba, if_neg hba, ih]
        simp only [List.map_cons, List.mem_cons]
        constructor
        · rintro (h | ⟨h1, h2, h3⟩)
          · exact Or.inl h
          · exact Or.inr ⟨h1, h2, Or.inr h3⟩
        · rintro (h | ⟨h1, h2, hub | h3⟩)
          · exact Or.inl h
          · exact absurd hub.symm hbu
          · exact Or.inr ⟨h1, h2, h3⟩

theorem mem_succList_addEdge (g : DiGraph) (u v a x : String) :
    x ∈ succList (addEdge g u v) a ↔ (x ∈ succList g a ∨ (a = u ∧ x = v)) := by
  have hkey : u ∈ (addNode (addNode g u) v).adj.map Prod.fst := by
    rw [← hasNode_iff, hasNode_addNode_iff, hasNode_addNode_iff]
    exact Or.inr (Or.inl rfl)
  show x ∈ (assocFind (addSucc (addNode (addNode g u) v).adj u v) a).getD [] ↔ _
  rw [mem_succ_addSucc]
  have hsucc : (assocFind (addNode (addNode g u) v).adj a).getD [] = succList g a := by
    show succList (addNode (addNode g u) v) a = succList g a
    rw [succList_addNode, succList_addNode]
  rw [hsucc]
  constructor
    <;> intro h
  · rcases h with h | ⟨h1, h2, _⟩
    · exact Or.inl h
    · exact Or.inr ⟨h1, h2⟩
  · rcases h with h | ⟨h1, h2⟩
    · exact Or.inl h
    · exact Or.inr ⟨h1, h2, hkey⟩

theorem assocFind_addSucc_ne {adj : List (String × List String)} {u a : String}
    (v : String) (hne : a ≠ u) : assocFind (addSucc adj u v) a = assocFind adj a := by
  induction adj with
  | nil => rfl
  | cons p rest ih =>
    obtain ⟨b, s⟩ := p
    simp only [addSucc]
    by_cases hbu : b = u
    · rw [if_pos hbu]
      simp only [assocFind]
      rw [if_neg (fun he : b = a => hne (he.symm.trans hbu)),
        if_neg (fun he : b = a => hne (he.symm.trans hbu))]
    · rw [if_neg hbu]
      simp only [assocFind]
      by_cases hba : b = a
      · rw [if_pos hba, if_pos hba]
      · rw [if_neg hba, if_neg hba]
        exact ih

theorem succList_addEdge_ne {g : DiGraph} {u a : String} (v : String)
    (hne : a ≠ u) : succList (addEdge g u v) a = succList g a := by
  show (assocFind (addSucc (addNode (addNode g u) v).adj u v) a).getD [] = _
  rw [assocFind_addSucc_ne v hne]
  show succList (addNode (addNode g u) v) a = succList g a
  rw [succList_addNode, succList_addNode]

theorem mem_addSucc {adj : List (String × List String)} {u v : String}
    {p : String × List String} (h : p ∈ addSucc adj u v) :
    p ∈ adj ∨ (∃ s, (u, s) ∈ adj ∧ v ∉ s ∧ p = (u, s ++ [v])) := by
  induction adj with
  | nil => simp [addSucc] at h
  | cons q rest ih =>
    obtain ⟨b, s⟩ := q
    simp only [addSucc] at h
    by_cases hbu : b = u
    · subst hbu
      rw [if_pos rfl] at h
      rcases List.mem_cons.mp h with rfl | hmem
      · by_cases hv : s.contains v
        · rw [if_pos hv]
          exact Or.inl (List.mem_cons_self _ _)
        · rw [if_neg hv]
          refine Or.inr ⟨s, List.mem_cons_self _ _, ?_, rfl⟩
          simpa [List.contains] using hv
      · exact Or.inl (List.mem_cons_of_mem _ hmem)
    · rw [if_neg hbu] at h
      rcases List.mem_cons.mp h with rfl | hmem
      · exact Or.inl (List.mem_cons_self _ _)
      · rcases ih hmem with hp | ⟨s', hs', hvs', hps'⟩
        · exact Or.inl (List.mem_cons_of_mem _ hp)
        · exact Or.inr ⟨s', List.mem_cons_of_mem _ hs', hvs', hps'⟩

theorem mem_addNode_adj {g : DiGraph} {m : String} {p : String × List String}
    (h : p ∈ (addNode g m).adj) : p ∈ g.adj ∨ p = (m, []) := by
  unfold addNode at h
  split at h
  · exact Or.inl h
  · simpa using h

theorem wf_addNode {g : DiGraph} (h : wellFormed g) (m : String) :
    wellFormed (addNode g m) := by
  obtain ⟨hkeys, hnodup, hclosed⟩ := h
  unfold addNode
  split
  · exact ⟨hkeys, hnodup, hclosed⟩
  · rename_i hm
    refine ⟨?_, ?_, ?_⟩
    · simp only [List.map_append, List.map_cons, List.map_nil]
      rw [List.nodup_append]
      refine ⟨hkeys, List.nodup_singleton m, ?_⟩
      intro a ha hb
      rw [List.mem_singleton] at hb
      subst hb
      exact hm (hasNode_iff.mpr ha)
    · intro p hp
      rcases List.mem_append.mp hp with hp | hp
      · exact hnodup p hp
      · rw [List.mem_singleton] at hp
        subst hp
        exact List.nodup_nil
    · intro p hp x hx
      simp only [List.map_append, List.map_cons, List.map_nil, List.mem_append]
      rcases List.mem_append.mp hp with hp | hp
      · exact Or.inl (hclosed p hp x hx)
      · rw [List.mem_singleton] at hp
        subst hp
        simp at hx

theorem wf_addEdge {g : DiGraph} (h : wellFormed g) (u v : String) :
    wellFormed (addEdge g u v) := by
  have h2 : wellFormed (addNode (addNode g u) v) := wf_addNode (wf_addNode h u) v
  obtain ⟨hkeys, hnodup, hclosed⟩ := h2
  have hvkey : v ∈ (addNode (addNode g u) v).adj.map Prod.fst := by
    rw [← hasNode_iff, hasNode_addNode_iff]
    exact Or.inl rfl
  refine ⟨?_, ?_, ?_⟩
  · show ((addSucc (addNode (addNode g u) v).adj u v).map Prod.fst).Nodup
    rw [map_fst_addSucc]
    exact hkeys
  · intro p hp
    rcases mem_addSucc hp with hp | ⟨s, hs, hvs, rfl⟩
    · exact hnodup p hp
    · show (s ++ [v]).Nodup
      rw [List.nodup_append]
      exact ⟨hnodup _ hs, List.nodup_singleton v,
        fun a ha hb => (List.mem_singleton.mp hb ▸ hvs) ha⟩
  · intro p hp x hx
    show x ∈ (addSucc (addNode (addNode g u) v).adj u v).map Prod.fst
    rw [map_fst_addSucc]
    rcases mem_addSucc hp with hp | ⟨s, hs, _, rfl⟩
    · exact hclosed p hp x hx
    · rcases List.mem_append.mp hx with hx | hx
      · exact hclosed _ hs x hx
      · rw [List.mem_singleton] at hx
        subst hx
        exact hvkey

theorem assocFind_mem {α : Type} {l : List (String × α)} {a : String} {x : α}
    (h : assocFind l a = some x) : (a, x) ∈ l := by
  induction l with
  | nil => simp [assocFind] at h
  | cons p rest ih =>
    obtain ⟨b, y⟩ := p
    simp only [assocFind] at h
    by_cases hba : b = a
    · rw [if_pos hba] at h
      subst hba
      injection h with h
      subst h
      exact List.mem_cons_self _ _
    · rw [if_neg hba] at h
      exact List.mem_cons_of_mem _ (ih h)

theorem succList_nodup {g : DiGraph} (hwf : wellFormed g) (u : String) :
    (succList g u).Nodup := by
  unfold succList
  cases hfind : assocFind g.adj u with
  | none => simp
  | some s =>
    simp only [Option.getD_some]
    exact hwf.2.1 (u, s) (assocFind_mem hfind)

theorem succList_subset_mentioned {g : DiGraph} {u x : String}
    (h : x ∈ succList g u) : x ∈ mentioned g := by
  unfold succList at h
  cases hfind : assocFind g.adj u with
  | none =>
    rw [hfind] at h
    simp at h
  | some s =>
    rw [hfind] at h
    simp only [Option.getD_some] at h
    refine List.mem_append.mpr (Or.inr ?_)
    exact List.mem_flatMap.mpr ⟨(u, s), assocFind_mem hfind, h⟩

theorem succList_closed {g : DiGraph} (hwf : wellFormed g) {u x : String}
    (h : x ∈ succList g u) : x ∈ g.adj.map Prod.fst := by
  unfold succList at h
  cases hfind : assocFind g.adj u with
  | none =>
    rw [hfind] at h
    simp at h
  | some s =>
    rw [hfind] at h
    simp only [Option.getD_some] at h
    exact hwf.2.2 (u, s) (assocFind_mem hfind) x h

theorem not_mem_of_pass_filter {visited : List String} {x : String}
    (h : (!visited.contains x) = true) : x ∉ visited := by
  simpa [List.contains] using h

theorem bfs_sound {g : DiGraph} :
    ∀ {fuel : Nat} {queue visited : List String} {x : String},
      x ∈ bfsFuel g fuel queue visited → ∃ u ∈ queue, Reaches g u x := by
  intro fuel
  induction fuel with
  | zero =>
    intro queue visited x hx
    simp [bfsFuel] at hx
  | succ f ih =>
    intro queue visited x hx
    match queue with
    | [] => simp [bfsFuel] at hx
    | u :: rest =>
      simp only [bfsFuel] at hx
      rcases List.mem_append.mp hx with hnew | hrec
      · have hedge : x ∈ succList g u := List.mem_of_mem_filter hnew
        exact ⟨u, List.mem_cons_self u rest, Reaches.tail (Reaches.refl u) hedge⟩
      · obtain ⟨w, hw, hreach⟩ := ih hrec
        rcases List.mem_append.mp hw with hw | hw
        · exact ⟨w, List.mem_cons_of_mem u hw, hreach⟩
        · have hedge : w ∈ succList g u := List.mem_of_mem_filter hw
          exact ⟨u, List.mem_cons_self u rest, Reaches.head hedge hreach⟩

theorem bfs_nodup_disj {g : DiGraph} (hwf : wellFormed g) :
    ∀ {fuel : Nat} {queue visited : List String},
      (bfsFuel g fuel queue visited).Nodup ∧
        ∀ x ∈ bfsFuel g fuel queue visited, x ∉ visited := by
  intro fuel
  induction fuel with
  | zero =>
    intro queue visited
    simp [bfsFuel]
  | succ f ih =>
    intro queue visited
    match queue with
    | [] => simp [bfsFuel]
    | u :: rest =>
      simp only [bfsFuel]
      obtain ⟨ihnodup, ihdisj⟩ :=
        @ih (rest ++ (succList g u).filter (fun v => !visited.contains v))
          (visited ++ (succList g u).filter (fun v => !visited.contains v))
      constructor
      · rw [List.nodup_append]
        refine ⟨(succList_nodup hwf u).filter _, ihnodup, ?_⟩
        intro x hxnew hxrec
        exact ihdisj x hxrec (List.mem_append.mpr (Or.inr hxnew))
      · intro x hx
        rcases List.mem_append.mp hx with hx | hx
        · exact not_mem_of_pass_filter (List.mem_filter.mp hx).2
        · intro hmem
          exact ihdisj x hx (List.mem_append.mpr (Or.inl hmem))

theorem pass_filter_of_not_mem {visited : List String} {x : String}
    (h : x ∉ visited) : (!visited.contains x) = true := by
  simpa [List.contains] using h

theorem reach_closed {g : DiGraph} {visited : List String}
    (hclosed : ∀ u ∈ visited, ∀ v ∈ succList g u, v ∈ visited)
    {u x : String} (hu : u ∈ visited) (hreach : Reaches g u x) : x ∈ visited := by
  induction hreach with
  | refl => exact hu
  | tail _ hedge ih => exact hclosed _ ih _ hedge

theorem bfs_complete {g : DiGraph} (hwf : wellFormed g) :
    ∀ {fuel : Nat} {queue visited : List String},
      (∀ u ∈ queue, u ∈ visited) →
      (∀ u ∈ visited, u ∉ queue → ∀ v ∈ succList g u, v ∈ visited) →
      ((mentioned g).toFinset \ visited.toFinset).card + queue.length ≤ fuel →
      ∀ {u x : String}, u ∈ visited → Reaches g u x →
        x ∈ visited ∨ x ∈ bfsFuel g fuel queue visited := by
  intro fuel
  induction fuel with
  | zero =>
    intro queue visited hq hclosed hfuel u x hu hreach
    have hqnil : queue = [] := by
      have : queue.length = 0 := by omega
      exact List.eq_nil_of_length_eq_zero this
    subst hqnil
    left
    exact reach_closed (fun w hw v hv => hclosed w hw (List.not_mem_nil w) v hv) hu hreach
  | succ f ih =>
    intro queue visited hq hclosed hfuel u x hu hreach
    match queue with
    | [] =>
      left
      exact reach_closed (fun w hw v hv => hclosed w hw (List.not_mem_nil w) v hv) hu hreach
    | u0 :: rest =>
      simp only [bfsFuel]
      have hq' : ∀ w ∈ rest ++ (succList g u0).filter (fun v => !visited.contains v),
          w ∈ visited ++ (succList g u0).filter (fun v => !visited.contains v) := by
        intro w hw
        rcases List.mem_append.mp hw with hw | hw
        · exact List.mem_append.mpr (Or.inl (hq w (List.mem_cons_of_mem u0 hw)))
        · exact List.mem_append.mpr (Or.inr hw)
      have hclosed' : ∀ w ∈ visited ++ (succList g u0).filter (fun v => !visited.contains v),
          w ∉ rest ++ (succList g u0).filter (fun v => !visited.contains v) →
          ∀ v ∈ succList g w,
            v ∈ visited ++ (succList g u0).filter (fun v => !visited.contains v) := by
        intro w hw hw2 v hv
        rcases List.mem_append.mp hw with hwvis | hwnew
        · by_cases hwu0 : w = u0
          · subst hwu0
            by_cases hvvis : v ∈ visited
            · exact List.mem_append.mpr (Or.inl hvvis)
            · exact List.mem_append.mpr
                (Or.inr (List.mem_filter.mpr ⟨hv, pass_filter_of_not_mem hvvis⟩))
          · have hwq : w ∉ u0 :: rest := by
              intro hc
              rcases List.mem_cons.mp hc with hc | hc
              · exact hwu0 hc
              · exact hw2 (List.mem_append.mpr (Or.inl hc))
            exact List.mem_append.mpr (Or.inl (hclosed w hwvis hwq v hv))
        · exact absurd (List.mem_append.mpr (Or.inr hwnew)) hw2
      have hfuel' : ((mentioned g).toFinset \
            (visited ++ (succList g u0).filter (fun v => !visited.contains v)).toFinset).card +
          (rest ++ (succList g u0).filter (fun v => !visited.contains v)).length ≤ f := by
        have hnsub : ((succList g u0).filter (fun v => !visited.contains v)).toFinset ⊆
            (mentioned g).toFinset \ visited.toFinset := by
          intro y hy
          rw [List.mem_toFinset] at hy
          obtain ⟨hy1, hy2⟩ := List.mem_filter.mp hy
          rw [Finset.mem_sdiff, List.mem_toFinset, List.mem_toFinset]
          exact ⟨succList_subset_mentioned hy1, not_mem_of_pass_filter hy2⟩
        have hsplit : (mentioned g).toFinset \
            (visited ++ (succList g u0).filter (fun v => !visited.contains v)).toFinset =
            ((mentioned g).toFinset \ visited.toFinset) \
              ((succList g u0).filter (fun v => !visited.contains v)).toFinset := by
          rw [List.toFinset_append]
          ext a
          simp only [Finset.mem_sdiff, Finset.mem_union]
          tauto
        have hcard : (((mentioned g).toFinset \ visited.toFinset) \
            ((succList g u0).filter (fun v => !visited.contains v)).toFinset).card =
            ((mentioned g).toFinset \ visited.toFinset).card -
              ((succList g u0).filter (fun v => !visited.contains v)).toFinset.card :=
          Finset.card_sdiff hnsub
        have hlen : ((succList g u0).filter (fun v => !visited.contains v)).toFinset.card =
            ((succList g u0).filter (fun v => !visited.contains v)).length := by
          rw [List.card_toFinset, List.Nodup.dedup ((succList_nodup hwf u0).filter _)]
        have hle : ((succList g u0).filter (fun v => !visited.contains v)).toFinset.card ≤
            ((mentioned g).toFinset \ visited.toFinset).card :=
          Finset.card_le_card hnsub
        rw [hsplit, hcard, List.length_append]
        simp only [List.length_cons] at hfuel
        omega
      have hu' : u ∈ visited ++ (succList g u0).filter (fun v => !visited.contains v) :=
        List.mem_append.mpr (Or.inl hu)
      rcases ih hq' hclosed' hfuel' hu' hreach with h | h
      · rcases List.mem_append.mp h with h | h
        · exact Or.inl h
        · exact Or.inr (List.mem_append.mpr (Or.inl h))
      · exact Or.inr (List.mem_append.mpr (Or.inr h))

theorem mem_bfsResult_iff {g : DiGraph} (hwf : wellFormed g) (s x : String) :
    x ∈ bfsResult g s ↔ (x ≠ s ∧ Reaches g s x) := by
  unfold bfsResult
  constructor
  · intro hx
    obtain ⟨u, hu, hreach⟩ := bfs_sound hx
    rw [List.mem_singleton] at hu
    refine ⟨?_, hu ▸ hreach⟩
    intro hxs
    exact (bfs_nodup_disj hwf).2 x hx (hxs ▸ List.mem_singleton_self s)
  · rintro ⟨hne, hreach⟩
    have hq : ∀ u ∈ ([s] : List String), u ∈ ([s] : List String) := fun u hu => hu
    have hclosed : ∀ u ∈ ([s] : List String), u ∉ ([s] : List String) →
        ∀ v ∈ succList g u, v ∈ ([s] : List String) :=
      fun u hu hnu => absurd hu hnu
    have hfuel : ((mentioned g).toFinset \ ([s] : List String).toFinset).card +
        ([s] : List String).length ≤ (mentioned g).length + 1 := by
      have h1 : ((mentioned g).toFinset \ ([s] : List String).toFinset).card ≤
          (mentioned g).toFinset.card := Finset.card_le_card (Finset.sdiff_subset)
      have h2 : (mentioned g).toFinset.card ≤ (mentioned g).length :=
        List.toFinset_card_le (mentioned g)
      simp only [List.length_singleton]
      omega
    rcases bfs_complete hwf hq hclosed hfuel (List.mem_singleton_self s) hreach with h | h
    · exact absurd (List.mem_singleton.mp h) hne
    · exact h

theorem resolve_ok {g : DiGraph} {s : String} (hs : hasNode g s = true) :
    resolve_dependency g s = Except.ok (bfsResult g s) := by
  unfold resolve_dependency
  rw [if_pos hs]

theorem resolve_error {g : DiGraph} {s : String} (hs : ¬hasNode g s = true) :
    resolve_dependency g s =
      Except.error ("The node " ++ s ++ " is not in the graph.") := by
  unfold resolve_dependency
  rw [if_neg hs]

theorem succ_base_nil (adj : List (String × List String)) (a : String) :
    (assocFind (adj.map (fun p => (p.1, ([] : List String)))) a).getD [] = [] := by
  induction adj with
  | nil => rfl
  | cons p rest ih =>
    obtain ⟨b, s⟩ := p
    simp only [List.map_cons, assocFind]
    by_cases hba : b = a
    · rw [if_pos hba]
      rfl
    · rw [if_neg hba]
      exact ih

theorem keys_base (adj : List (String × List String)) :
    (adj.map (fun p => (p.1, ([] : List String)))).map Prod.fst = adj.map Prod.fst := by
  simp [List.map_map, Function.comp]

theorem mem_succ_foldl_addEdge :
    ∀ (E : List (String × String)) (acc : DiGraph) (a x : String),
      x ∈ succList (E.foldl (fun h e => addEdge h e.2 e.1) acc) a ↔
        (x ∈ succList acc a ∨ ∃ e ∈ E, a = e.2 ∧ x = e.1) := by
  intro E
  induction E with
  | nil =>
    intro acc a x
    simp
  | cons e E' ih =>
    intro acc a x
    rw [List.foldl_cons, ih, mem_succList_addEdge]
    constructor
    · rintro ((h | ⟨h1, h2⟩) | ⟨e', he', h1, h2⟩)
      · exact Or.inl h
      · exact Or.inr ⟨e, List.mem_cons_self _ _, h1, h2⟩
      · exact Or.inr ⟨e', List.mem_cons_of_mem _ he', h1, h2⟩
    · rintro (h | ⟨e', he', h1, h2⟩)
      · exact Or.inl (Or.inl h)
      · rcases List.mem_cons.mp he' with rfl | he'
        · exact Or.inl (Or.inr ⟨h1, h2⟩)
        · exact Or.inr ⟨e', he', h1, h2⟩

theorem map_fst_addEdge_of_mem {g : DiGraph} {u v : String}
    (hu : hasNode g u = true) (hv : hasNode g v = true) :
    (addEdge g u v).adj.map Prod.fst = g.adj.map Prod.fst := by
  rw [map_fst_addEdge, map_fst_addNode,
    if_pos ((hasNode_addNode_iff g u v).mpr (Or.inr hv)), map_fst_addNode, if_pos hu]

theorem keys_foldl_addEdge :
    ∀ (E : List (String × String)) (acc : DiGraph),
      (∀ e ∈ E, e.1 ∈ acc.adj.map Prod.fst ∧ e.2 ∈ acc.adj.map Prod.fst) →
      (E.foldl (fun h e => addEdge h e.2 e.1) acc).adj.map Prod.fst =
        acc.adj.map Prod.fst := by
  intro E
  induction E with
  | nil =>
    intro acc _
    rfl
  | cons e E' ih =>
    intro acc hmem
    rw [List.foldl_cons]
    have he := hmem e (List.mem_cons_self _ _)
    have hkeys : (addEdge acc e.2 e.1).adj.map Prod.fst = acc.adj.map Prod.fst :=
      map_fst_addEdge_of_mem (hasNode_iff.mpr he.2) (hasNode_iff.mpr he.1)
    rw [ih (addEdge acc e.2 e.1) (fun e' he' => by
      rw [hkeys]
      exact hmem e' (List.mem_cons_of_mem _ he')), hkeys]

theorem assocFind_of_nodup_mem {α : Type} {adj : List (String × α)} {v : String} {s : α}
    (hnd : (adj.map Prod.fst).Nodup) (hmem : (v, s) ∈ adj) :
    assocFind adj v = some s := by
  induction adj with
  | nil => simp at hmem
  | cons p rest ih =>
    obtain ⟨b, t⟩ := p
    simp only [List.map_cons, List.nodup_cons] at hnd
    rcases List.mem_cons.mp hmem with heq | hmem'
    · injection heq with h1 h2
      subst h1
      subst h2
      simp [assocFind]
    · have hbv : ¬b = v := by
        intro hc
        subst hc
        exact hnd.1 (List.mem_map.mpr ⟨(b, s), hmem', rfl⟩)
      simp only [assocFind, if_neg hbv]
      exact ih hnd.2 hmem'

theorem mem_edgeList_iff {g : DiGraph} (hwf : wellFormed g) {v u : String} :
    (v, u) ∈ edgeList g ↔ u ∈ succList g v := by
  unfold edgeList
  rw [List.mem_flatMap]
  constructor
  · rintro ⟨p, hp, hmem⟩
    obtain ⟨w, hw, heq⟩ := List.mem_map.mp hmem
    injection heq with h1 h2
    subst h1
    subst h2
    unfold succList
    rw [assocFind_of_nodup_mem hwf.1 hp]
    exact hw
  · intro hu
    unfold succList at hu
    cases hfind : assocFind g.adj v with
    | none =>
      rw [hfind] at hu
      simp at hu
    | some s =>
      rw [hfind] at hu
      simp only [Option.getD_some] at hu
      exact ⟨(v, s), assocFind_mem hfind, List.mem_map.mpr ⟨u, hu, rfl⟩⟩

theorem keys_reverse {g : DiGraph} (hwf : wellFormed g) :
    (reverse g).adj.map Prod.fst = g.adj.map Prod.fst := by
  unfold reverse
  rw [keys_foldl_addEdge, keys_base]
  intro e he
  rw [keys_base]
  unfold edgeList at he
  obtain ⟨p, hp, hmem⟩ := List.mem_flatMap.mp he
  obtain ⟨w, hw, heq⟩ := List.mem_map.mp hmem
  subst heq
  exact ⟨List.mem_map.mpr ⟨p, hp, rfl⟩, hwf.2.2 p hp w hw⟩

theorem mem_succList_reverse {g : DiGraph} (hwf : wellFormed g) (u x : String) :
    x ∈ succList (reverse g) u ↔ u ∈ succList g x := by
  unfold reverse
  rw [mem_succ_foldl_addEdge]
  have hbase : succList ⟨g.adj.map (fun p => (p.1, []))⟩ u = [] := succ_base_nil g.adj u
  rw [show succList (⟨g.adj.map (fun p => (p.1, []))⟩ : DiGraph) u =
    (assocFind (g.adj.map (fun p => (p.1, ([] : List String)))) u).getD [] from rfl] at hbase
  constructor
  · rintro (h | ⟨e, he, rfl, rfl⟩)
    · rw [show succList (⟨g.adj.map (fun p => (p.1, []))⟩ : DiGraph) u =
        (assocFind (g.adj.map (fun p => (p.1, ([] : List String)))) u).getD [] from rfl,
        hbase] at h
      simp at h
    · exact (mem_edgeList_iff hwf).mp (by simpa using he)
  · intro h
    refine Or.inr ⟨(x, u), (mem_edgeList_iff hwf).mpr h, rfl, rfl⟩

theorem wf_foldl_addEdge :
    ∀ (E : List (String × String)) (acc : DiGraph), wellFormed acc →
      wellFormed (E.foldl (fun h e => addEdge h e.2 e.1) acc) := by
  intro E
  induction E with
  | nil =>
    intro acc h
    exact h
  | cons e E' ih =>
    intro acc h
    exact ih _ (wf_addEdge h e.2 e.1)

theorem wf_base (g : DiGraph) (hwf : wellFormed g) :
    wellFormed (⟨g.adj.map (fun p => (p.1, []))⟩ : DiGraph) := by
  refine ⟨?_, ?_, ?_⟩
  · rw [show (⟨g.adj.map (fun p => (p.1, []))⟩ : DiGraph).adj =
      g.adj.map (fun p => (p.1, [])) from rfl, keys_base]
    exact hwf.1
  · intro p hp
    obtain ⟨q, _, heq⟩ := List.mem_map.mp hp
    rw [← heq]
    exact List.nodup_nil
  · intro p hp x hx
    obtain ⟨q, _, heq⟩ := List.mem_map.mp hp
    rw [← heq] at hx
    simp at hx

theorem wf_reverse {g : DiGraph} (hwf : wellFormed g) : wellFormed (reverse g) :=
  wf_foldl_addEdge _ _ (wf_base g hwf)

theorem reaches_reverse_mp {g : DiGraph} (hwf : wellFormed g) {a b : String}
    (h : Reaches (reverse g) a b) : Reaches g b a := by
  induction h with
  | refl => exact Reaches.refl _
  | tail _ hedge ih =>
    exact Reaches.head ((mem_succList_reverse hwf _ _).mp hedge) ih

theorem reaches_reverse_mpr {g : DiGraph} (hwf : wellFormed g) {a b : String}
    (h : Reaches g a b) : Reaches (reverse g) b a := by
  induction h with
  | refl => exact Reaches.refl _
  | tail _ hedge ih =>
    exact Reaches.head ((mem_succList_reverse hwf _ _).mpr hedge) ih

theorem wf_empty : wellFormed (⟨[]⟩ : DiGraph) := by
  refine ⟨List.nodup_nil, ?_, ?_⟩
    <;> intro p hp
    <;> simp at hp

theorem wf_build_aux :
    ∀ (rows : List (String × Option String)) (acc : DiGraph), wellFormed acc →
      wellFormed (rows.foldl
        (fun g p => match p.2 with | none => addNode g p.1 | some d => addEdge g p.1 d)
        acc) := by
  intro rows
  induction rows with
  | nil =>
    intro acc h
    exact h
  | cons p rest ih =>
    intro acc h
    obtain ⟨n, o⟩ := p
    rw [List.foldl_cons]
    cases o with
    | none => exact ih _ (wf_addNode h n)
    | some d => exact ih _ (wf_addEdge h n d)

theorem wf_build (rows : List (String × Option String)) :
    wellFormed (build_dependency_graph rows) :=
  wf_build_aux rows ⟨[]⟩ wf_empty

theorem hasNode_foldl_build_of :
    ∀ (rows : List (String × Option String)) (acc : DiGraph) (n : String),
      hasNode acc n = true →
      hasNode (rows.foldl
        (fun g p => match p.2 with | none => addNode g p.1 | some d => addEdge g p.1 d)
        acc) n = true := by
  intro rows
  induction rows with
  | nil =>
    intro acc n h
    exact h
  | cons p rest ih =>
    intro acc n h
    obtain ⟨m, o⟩ := p
    rw [List.foldl_cons]
    cases o with
    | none => exact ih _ n ((hasNode_addNode_iff acc m n).mpr (Or.inr h))
    | some d => exact ih _ n ((hasNode_addEdge_iff acc m d n).mpr (Or.inr (Or.inr h)))

theorem hasNode_build_of_mem :
    ∀ (rows : List (String × Option String)) (acc : DiGraph) (n : String)
      (o : Option String), (n, o) ∈ rows →
      hasNode (rows.foldl
        (fun g p => match p.2 with | none => addNode g p.1 | some d => addEdge g p.1 d)
        acc) n = true := by
  intro rows
  induction rows with
  | nil =>
    intro acc n o h
    simp at h
  | cons p rest ih =>
    intro acc n o h
    obtain ⟨m, o'⟩ := p
    rw [List.foldl_cons]
    rcases List.mem_cons.mp h with heq | hmem
    · injection heq with h1 h2
      subst h1
      subst h2
      cases o with
      | none =>
        exact hasNode_foldl_build_of rest _ n
          ((hasNode_addNode_iff acc n n).mpr (Or.inl rfl))
      | some d =>
        exact hasNode_foldl_build_of rest _ n
          ((hasNode_addEdge_iff acc n d n).mpr (Or.inl rfl))
    · exact ih _ n o hmem

theorem succList_foldl_build_ne :
    ∀ (rows : List (String × Option String)) (acc : DiGraph) (n : String),
      (∀ d, (n, some d) ∉ rows) →
      succList (rows.foldl
        (fun g p => match p.2 with | none => addNode g p.1 | some d => addEdge g p.1 d)
        acc) n = succList acc n := by
  intro rows
  induction rows with
  | nil =>
    intro acc n _
    rfl
  | cons p rest ih =>
    intro acc n h
    obtain ⟨m, o⟩ := p
    rw [List.foldl_cons]
    have hrest : ∀ d, (n, some d) ∉ rest :=
      fun d hc => h d (List.mem_cons_of_mem _ hc)
    cases o with
    | none =>
      rw [ih _ n hrest, succList_addNode]
    | some d =>
      have hnm : n ≠ m := by
        intro hc
        subst hc
        exact h d (List.mem_cons_self _ _)
      rw [ih _ n hrest, succList_addEdge_ne d hnm]

theorem bfsResult_eq_nil {g : DiGraph} {s : String} (h : succList g s = []) :
    bfsResult g s = [] := by
  unfold bfsResult
  cases hlen : (mentioned g).length with
  | zero => simp [bfsFuel, h]
  | succ L => simp [bfsFuel, h]

theorem resolve_eq_nil {g : DiGraph} {s : String} (hs : hasNode g s = true)
    (h : succList g s = []) : resolve_dependency g s = Except.ok [] := by
  rw [resolve_ok hs, bfsResult_eq_nil h]

theorem mem_extract_of_no_reqs {rows : List Record} {r : Record} (hmem : r ∈ rows)
    (hreq : r.requires_dist = none ∨ r.requires_dist = some []) :
    (r.name, (none : Option String)) ∈ extract_dependencies rows := by
  unfold extract_dependencies
  refine List.mem_map.mpr ⟨(r.name, none), ?_, rfl⟩
  unfold explodeRequires
  refine List.mem_flatMap.mpr ⟨r, hmem, ?_⟩
  rcases hreq with h | h
    <;> rw [h]
    <;> exact List.mem_singleton_self _

theorem no_dep_row_of_no_reqs {rows : List Record} {r : Record}
    (hreq : r.requires_dist = none ∨ r.requires_dist = some [])
    (huniq : ∀ q ∈ rows, q.name = r.name → q = r) :
    ∀ d, (r.name, some d) ∉ extract_dependencies rows := by
  intro d hd
  unfold extract_dependencies at hd
  obtain ⟨⟨pn, po⟩, hp, heq⟩ := List.mem_map.mp hd
  injection heq with h1 h2
  unfold explodeRequires at hp
  obtain ⟨q, hq, hqmem⟩ := List.mem_flatMap.mp hp
  rcases hcase : q.requires_dist with _ | l
  · rw [hcase] at hqmem
    rw [List.mem_singleton] at hqmem
    injection hqmem with hq1 hq2
    rw [hq2] at h2
    simp at h2
  · cases l with
    | nil =>
      rw [hcase] at hqmem
      rw [List.mem_singleton] at hqmem
      injection hqmem with hq1 hq2
      rw [hq2] at h2
      simp at h2
    | cons x xs =>
      rw [hcase] at hqmem
      obtain ⟨s, _, heq2⟩ := List.mem_map.mp hqmem
      injection heq2 with hq1 hq2
      have h1' : pn = r.name := h1
      have hqr : q = r := huniq q hq (hq1.trans h1')
      rw [hqr] at hcase
      rcases hreq with h | h
        <;> rw [h] at hcase
      · exact Option.noConfusion hcase
      · injection hcase with hc
        exact List.noConfusion hc

theorem find_name_unique {rows : List Record} {r : Record} (hmem : r ∈ rows)
    (huniq : ∀ q ∈ rows, q.name = r.name → q = r) :
    rows.find? (fun q => q.name == r.name) = some r := by
  induction rows with
  | nil => simp at hmem
  | cons q rest ih =>
    by_cases hq : q.name == r.name
    · have hqr : q = r := huniq q (List.mem_cons_self _ _) (by simpa using hq)
      simp only [List.find?, hq]
      rw [hqr]
    · have hqf : (q.name == r.name) = false := by
        simpa using hq
      simp only [List.find?, hqf]
      have hmem' : r ∈ rest := by
        rcases List.mem_cons.mp hmem with rfl | h
        · exact absurd (by simp) hq
        · exact h
      exact ih hmem' (fun p hp hname => huniq p (List.mem_cons_of_mem _ hp) hname)

/-- Claim C1, counterexample: on the pure cycle A→B, B→C, C→A the code returns
the list ["B", "C"] for node A, so A is NOT a member of its own reachability
set even though a cycle routes back to it, contradicting the claimed value
{A, B, C}. -/
theorem c1_counterexample :
    resolve_dependency cycleGraph "A" = Except.ok ["B", "C"] ∧
      "A" ∉ (["B", "C"] : List String) :=
  ⟨by rfl, by decide⟩

/-- Claim C1 (amended): for every well-formed graph and every node, the list
returned by resolve_dependency never contains the start node itself, cycles
through the start included: nx.bfs_edges marks the source visited before the
traversal begins, so it is never rediscovered. -/
theorem c1_no_self_membership {g : DiGraph} (hwf : wellFormed g) {n : String}
    {l : List String} (h : resolve_dependency g n = Except.ok l) : n ∉ l := by
  by_cases hn : hasNode g n = true
  · rw [resolve_ok hn] at h
    injection h with h
    subst h
    intro hmem
    exact ((mem_bfsResult_iff hwf n n).mp hmem).1 rfl
  · rw [resolve_error hn] at h
    exact Except.noConfusion h

/-- Claim C1 witness: the amended theorem applied to the concrete cycle. -/
theorem c1_no_self_membership_witness :
    wellFormed cycleGraph ∧ "A" ∉ (["B", "C"] : List String) :=
  ⟨by decide, @c1_no_self_membership cycleGraph (by decide) "A" ["B", "C"] (by rfl)⟩

/-- Claim C2: reverse reachability is the exact dual of forward reachability:
for every node n of a well-formed graph, m lies in the reachability list of n
on the reverse graph exactly when n lies in the reachability list of m on the
forward graph. -/
theorem c2_reverse_duality {g : DiGraph} (hwf : wellFormed g) {n : String}
    (hn : hasNode g n = true) (m : String) :
    (∃ l, resolve_dependency (reverse g) n = Except.ok l ∧ m ∈ l) ↔
      (∃ l, resolve_dependency g m = Except.ok l ∧ n ∈ l) := by
  have hrevn : hasNode (reverse g) n = true := by
    rw [hasNode_iff, keys_reverse hwf]
    exact hasNode_iff.mp hn
  constructor
  · rintro ⟨l, hl, hm⟩
    rw [resolve_ok hrevn] at hl
    injection hl with hl
    subst hl
    obtain ⟨hne, hreach⟩ := (mem_bfsResult_iff (wf_reverse hwf) n m).mp hm
    have hm_node : hasNode g m = true := by
      cases hreach with
      | refl => exact absurd rfl hne
      | tail _ hedge =>
        rw [hasNode_iff, ← keys_reverse hwf]
        exact succList_closed (wf_reverse hwf) hedge
    refine ⟨bfsResult g m, resolve_ok hm_node, ?_⟩
    rw [mem_bfsResult_iff hwf m n]
    exact ⟨Ne.symm hne, reaches_reverse_mp hwf hreach⟩
  · rintro ⟨l, hl, hnl⟩
    by_cases hm : hasNode g m = true
    · rw [resolve_ok hm] at hl
      injection hl with hl
      subst hl
      obtain ⟨hne, hreach⟩ := (mem_bfsResult_iff hwf m n).mp hnl
      refine ⟨bfsResult (reverse g) n, resolve_ok hrevn, ?_⟩
      rw [mem_bfsResult_iff (wf_reverse hwf) n m]
      exact ⟨Ne.symm hne, reaches_reverse_mpr hwf hreach⟩
    · rw [resolve_error hm] at hl
      exact Except.noConfusion hl

/-- Claim C2 witness: the duality applied on the concrete cycle at n = A,
m = B. -/
theorem c2_reverse_duality_witness :
    (∃ l, resolve_dependency (reverse cycleGraph) "A" = Except.ok l ∧ "B" ∈ l) ↔
      (∃ l, resolve_dependency cycleGraph "B" = Except.ok l ∧ "A" ∈ l) :=
  c2_reverse_duality (by decide) (by rfl) "B"

/-- Claim C3, counterexample: on the self-loop graph A→A the node A is
reachable from A through an edge, yet the returned list is empty, so the list
does not contain every reachable node. -/
theorem c3_counterexample :
    ReachesPlus selfLoopGraph "A" "A" ∧
      resolve_dependency selfLoopGraph "A" = Except.ok [] :=
  ⟨⟨"A", by decide, Reaches.refl "A"⟩, by rfl⟩

/-- Claim C3 (amended): on every finite well-formed directed graph, cycles and
self-loops included, resolve_dependency is total (the embedding is a
terminating function) and its list contains each node OTHER THAN the start
reachable from the start exactly once — no duplicates, and the start itself
never appears even when a cycle returns to it. -/
theorem c3_traversal_characterization {g : DiGraph} (hwf : wellFormed g)
    {s : String} (hs : hasNode g s = true) :
    resolve_dependency g s = Except.ok (bfsResult g s) ∧
      (bfsResult g s).Nodup ∧
      ∀ x, (x ∈ bfsResult g s ↔ (x ≠ s ∧ Reaches g s x)) :=
  ⟨resolve_ok hs,
    (@bfs_nodup_disj g hwf ((mentioned g).length + 1) [s] [s]).1,
    fun x => mem_bfsResult_iff hwf s x⟩

/-- Claim C3 witness: the characterization applied to the concrete cycle at
start A and probe node B. -/
theorem c3_traversal_characterization_witness :
    resolve_dependency cycleGraph "A" = Except.ok (bfsResult cycleGraph "A") ∧
      (bfsResult cycleGraph "A").Nodup ∧
      ("B" ∈ bfsResult cycleGraph "A" ↔ ("B" ≠ "A" ∧ Reaches cycleGraph "A" "B")) :=
  ⟨(c3_traversal_characterization (by decide) (by rfl)).1,
    (c3_traversal_characterization (by decide) (by rfl)).2.1,
    (c3_traversal_characterization (by decide) (by rfl)).2.2 "B"⟩

/-- Claim C4, counterexample: calling resolve_dependency with the name Z,
absent from the cycle graph, produces the networkx error rather than an empty
reachability set. -/
theorem c4_counterexample :
    resolve_dependency cycleGraph "Z" =
        Except.error "The node Z is not in the graph." ∧
      resolve_dependency cycleGraph "Z" ≠ Except.ok [] :=
  ⟨by rfl, fun h => Except.noConfusion h⟩

/-- Claim C4 (amended): calling the reachability engine with a name that is
not a node of the graph raises (nx.bfs_edges raises NetworkXError), modelled
as an error result, never an empty list. -/
theorem c4_missing_node_raises {g : DiGraph} {n : String}
    (hn : hasNode g n = false) :
    resolve_dependency g n =
      Except.error ("The node " ++ n ++ " is not in the graph.") :=
  resolve_error (by simp [hn])

/-- Claim C4 witness: the amended theorem applied to the concrete cycle and
the absent name Z. -/
theorem c4_missing_node_raises_witness :
    hasNode cycleGraph "Z" = false ∧
      resolve_dependency cycleGraph "Z" =
        Except.error ("The node " ++ "Z" ++ " is not in the graph.") :=
  ⟨by rfl, c4_missing_node_raises (by rfl)⟩

/-- Claim C6: the required_by graph is the exact edge transpose of the
dependency graph produced structurally by DiGraph.reverse: its node list is
the dependency graph's node list (isolated and dangling nodes included, in the
same order), and (u, v) is one of its edges exactly when (v, u) is an edge of
the dependency graph. -/
theorem c6_reverse_is_transpose {g : DiGraph} (hwf : wellFormed g) :
    (reverse g).adj.map Prod.fst = g.adj.map Prod.fst ∧
      ∀ u v : String, ((u, v) ∈ edgeList (reverse g) ↔ (v, u) ∈ edgeList g) := by
  refine ⟨keys_reverse hwf, fun u v => ?_⟩
  rw [mem_edgeList_iff (wf_reverse hwf), mem_edgeList_iff hwf]
  exact mem_succList_reverse hwf u v

/-- Claim C6 witness: the transpose property applied on the concrete cycle at
the edge (A, C). -/
theorem c6_reverse_is_transpose_witness :
    (reverse cycleGraph).adj.map Prod.fst = cycleGraph.adj.map Prod.fst ∧
      (("A", "C") ∈ edgeList (reverse cycleGraph) ↔ ("C", "A") ∈ edgeList cycleGraph) :=
  ⟨(c6_reverse_is_transpose (by decide)).1,
    (c6_reverse_is_transpose (by decide)).2 "A" "C"⟩

/-- Claim C9: a package record declaring zero requirement strings (null or
empty requires_dist) still appears as a node of the built dependency graph,
its resolved depends_on list is empty, and its total transitive size equals
its own size (0 when the size is null); names are assumed unique as the
latest-version filter guarantees upstream. -/
theorem c9_zero_requirements (rows : List Record) (r : Record)
    (hmem : r ∈ rows)
    (hreq : r.requires_dist = none ∨ r.requires_dist = some [])
    (huniq : ∀ q ∈ rows, q.name = r.name → q = r) :
    hasNode (build_dependency_graph (extract_dependencies rows)) r.name = true ∧
      resolve_dependency (build_dependency_graph (extract_dependencies rows)) r.name =
        Except.ok [] ∧
      total_size rows (build_dependency_graph (extract_dependencies rows)) r.name =
        r.size.getD 0 := by
  have hnode : hasNode (build_dependency_graph (extract_dependencies rows)) r.name = true :=
    hasNode_build_of_mem (extract_dependencies rows) ⟨[]⟩ r.name none
      (mem_extract_of_no_reqs hmem hreq)
  have hsucc : succList (build_dependency_graph (extract_dependencies rows)) r.name = [] := by
    have := succList_foldl_build_ne (extract_dependencies rows) ⟨[]⟩ r.name
      (no_dep_row_of_no_reqs hreq huniq)
    exact this
  have hres : resolve_dependency (build_dependency_graph (extract_dependencies rows)) r.name =
      Except.ok [] := resolve_eq_nil hnode hsucc
  refine ⟨hnode, hres, ?_⟩
  unfold total_size
  rw [hres]
  unfold sizeOfName
  rw [find_name_unique hmem huniq]
  rfl

/-- Claim C9 witness: the theorem applied to a one-record snapshot whose
record has no requirements and size 5. -/
theorem c9_zero_requirements_witness :
    hasNode (build_dependency_graph (extract_dependencies
        [⟨"a", "1", 0, some 5, none⟩])) "a" = true ∧
      resolve_dependency (build_dependency_graph (extract_dependencies
        [⟨"a", "1", 0, some 5, none⟩])) "a" = Except.ok [] ∧
      total_size [⟨"a", "1", 0, some 5, none⟩]
        (build_dependency_graph (extract_dependencies
          [⟨"a", "1", 0, some 5, none⟩])) "a" = 5 :=
  c9_zero_requirements [⟨"a", "1", 0, some 5, none⟩] ⟨"a", "1", 0, some 5, none⟩
    (by decide) (Or.inl rfl) (by decide)

theorem le_foldl_max_init : ∀ (as : List Int) (a : Int), a ≤ as.foldl max a := by
  intro as
  induction as with
  | nil =>
    intro a
    exact le_refl a
  | cons b bs ih =>
    intro a
    rw [List.foldl_cons]
    exact le_trans (le_max_left a b) (ih (max a b))

theorem foldl_max_mem :
    ∀ (as : List Int) (a : Int), as.foldl max a = a ∨ as.foldl max a ∈ as := by
  intro as
  induction as with
  | nil =>
    intro a
    exact Or.inl rfl
  | cons b bs ih =>
    intro a
    rw [List.foldl_cons]
    rcases ih (max a b) with h | h
    · rcases max_choice a b with hm | hm
      · exact Or.inl (h.trans hm)
      · rw [h, hm]
        exact Or.inr (List.mem_cons_self _ _)
    · exact Or.inr (List.mem_cons_of_mem _ h)

theorem le_foldl_max_of_mem :
    ∀ (as : List Int) (a x : Int), x ∈ as → x ≤ as.foldl max a := by
  intro as
  induction as with
  | nil =>
    intro a x hx
    simp at hx
  | cons b bs ih =>
    intro a x hx
    rw [List.foldl_cons]
    rcases List.mem_cons.mp hx with rfl | hx
    · exact le_trans (le_max_right a x) (le_foldl_max_init bs (max a x))
    · exact ih (max a b) x hx

theorem foldl_max_le :
    ∀ (as : List Int) (a m : Int), a ≤ m → (∀ x ∈ as, x ≤ m) →
      as.foldl max a ≤ m := by
  intro as
  induction as with
  | nil =>
    intro a m ha _
    exact ha
  | cons b bs ih =>
    intro a m ha hb
    rw [List.foldl_cons]
    exact ih (max a b) m (max_le ha (hb b (List.mem_cons_self _ _)))
      (fun x hx => hb x (List.mem_cons_of_mem _ hx))

theorem max?_eq_some_iff_max {l : List Int} {m : Int} :
    l.max? = some m ↔ (m ∈ l ∧ ∀ x ∈ l, x ≤ m) := by
  cases l with
  | nil => simp [List.max?]
  | cons a as =>
    simp only [List.max?]
    constructor
    · intro h
      injection h with h
      subst h
      constructor
      · rcases foldl_max_mem as a with h | h
        · rw [h]
          exact List.mem_cons_self _ _
        · exact List.mem_cons_of_mem _ h
      · intro x hx
        rcases List.mem_cons.mp hx with rfl | hx
        · exact le_foldl_max_init as x
        · exact le_foldl_max_of_mem as a x hx
    · rintro ⟨hmem, hbound⟩
      have h1 : as.foldl max a ≤ m :=
        foldl_max_le as a m (hbound a (List.mem_cons_self _ _))
          (fun x hx => hbound x (List.mem_cons_of_mem _ hx))
      have h2 : m ≤ as.foldl max a := by
        rcases List.mem_cons.mp hmem with rfl | hx
        · exact le_foldl_max_init as m
        · exact le_foldl_max_of_mem as a m hx
      rw [le_antisymm h1 h2]

/-- Claim C7: a record survives the snapshot filter exactly when its upload
time is the maximum among the records of its name, so a record that does not
attain the per-name maximum is dropped before graph construction and
aggregation and cannot influence the output (under ties every maximal record
is kept, which the claim leaves unspecified). -/
theorem c7_latest_record_filter (rows : List Record) (r : Record) :
    r ∈ package_metadata rows ↔
      (r ∈ rows ∧ ∀ q ∈ rows, q.name = r.name → q.upload_time ≤ r.upload_time) := by
  unfold package_metadata
  rw [List.mem_filter]
  constructor
  · rintro ⟨hr, hpred⟩
    have heq : ((rows.filter (fun q => q.name == r.name)).map
        (fun q => q.upload_time)).max? = some r.upload_time := by
      simpa using hpred
    obtain ⟨_, hbound⟩ := max?_eq_some_iff_max.mp heq
    refine ⟨hr, fun q hq hname => ?_⟩
    exact hbound q.upload_time
      (List.mem_map.mpr ⟨q, List.mem_filter.mpr ⟨hq, by simp [hname]⟩, rfl⟩)
  · rintro ⟨hr, hbound⟩
    refine ⟨hr, ?_⟩
    have heq : ((rows.filter (fun q => q.name == r.name)).map
        (fun q => q.upload_time)).max? = some r.upload_time := by
      rw [max?_eq_some_iff_max]
      constructor
      · exact List.mem_map.mpr ⟨r, List.mem_filter.mpr ⟨hr, by simp⟩, rfl⟩
      · intro x hx
        obtain ⟨q, hq, hqe⟩ := List.mem_map.mp hx
        obtain ⟨hq1, hq2⟩ := List.mem_filter.mp hq
        rw [← hqe]
        exact hbound q hq1 (by simpa using hq2)
    simp [heq]

/-- Claim C8: adding a package+version record whose (name, version) pair is
already stored fails loudly with the ValueError message of the source rather
than silently replacing or keeping one of the two records. -/
theorem c8_duplicate_rejected (src : PackageSource) (name version : String)
    (deps : List (String × String))
    (h : version ∈ (versionsOf src name).map Prod.fst) :
    src.add name version deps =
      Except.error (name ++ " (" ++ version ++ ") already exists") := by
  unfold PackageSource.add
  rw [if_pos (by simpa [List.contains] using h)]

/-- Claim C8 witness: re-adding shared 2.0.0 to a source already holding it
errors, mirroring the notebook's source.add calls. -/
theorem c8_duplicate_rejected_witness :
    "2.0.0" ∈ (versionsOf ⟨[], [("shared", [("2.0.0", [])])]⟩ "shared").map Prod.fst ∧
      PackageSource.add ⟨[], [("shared", [("2.0.0", [])])]⟩ "shared" "2.0.0" [] =
        Except.error ("shared" ++ " (" ++ "2.0.0" ++ ") already exists") :=
  ⟨by decide, c8_duplicate_rejected ⟨[], [("shared", [("2.0.0", [])])]⟩
    "shared" "2.0.0" [] (by decide)⟩

theorem head_dropWhile_false {α : Type} {q : α → Bool} :
    ∀ {l : List α} {c : α} {cs : List α}, l.dropWhile q = c :: cs → q c = false := by
  intro l
  induction l with
  | nil =>
    intro c cs h
    simp at h
  | cons a as ih =>
    intro c cs h
    by_cases ha : q a
    · rw [List.dropWhile_cons_of_pos ha] at h
      exact ih h
    · rw [List.dropWhile_cons_of_neg ha] at h
      injection h with h1 _
      rw [← h1]
      simpa using ha

theorem extractName_eq_none_iff (s : String) :
    extractName s = none ↔ s.data.dropWhile (fun c => !isNameChar c) = [] := by
  unfold extractName
  cases h : s.data.dropWhile (fun c => !isNameChar c) with
  | nil => simp
  | cons c cs => simp

/-- Claim C5, counterexample: for the requirement string ">=1.0" the code
extracts the name "1" (the first run of name characters, found mid-string)
and emits a row, while the spec's longest-prefix-at-start rule yields no name
at all: the claimed behaviour differs from the code on this input. -/
theorem c5_counterexample :
    extract_dependencies [⟨"x", "1.0", 0, none, some [">=1.0"]⟩] =
        [("x", some "1")] ∧
      spec_extract_name ">=1.0" = none ∧
      (some "1" : Option String) ≠ spec_extract_name ">=1.0" :=
  ⟨by rfl, by rfl, by decide⟩

/-- Claim C5 (amended): the Normalizer emits, for each requirement string, the
FIRST maximal run of characters of the class [\w_-] occurring ANYWHERE in the
string (the polars regex is unanchored); a string containing no class
character yields a null name, and the exploded row is kept either way (one
output row per exploded row, never dropped). -/
theorem c5_first_match_extraction :
    (∀ (rows : List Record), ∀ p ∈ explodeRequires rows,
        (p.1, p.2.bind extractName) ∈ extract_dependencies rows) ∧
      (∀ s : String, (extractName s = none ↔ ∀ c ∈ s.data, isNameChar c = false)) ∧
      (∀ s t : String, extractName s = some t →
        ∃ pre post, s.data = pre ++ t.data ++ post ∧
          (∀ c ∈ pre, isNameChar c = false) ∧ t.data ≠ [] ∧
          (∀ c ∈ t.data, isNameChar c = true) ∧
          (∀ c, post.head? = some c → isNameChar c = false)) := by
  refine ⟨?_, ?_, ?_⟩
  · intro rows p hp
    exact List.mem_map.mpr ⟨p, hp, rfl⟩
  · intro s
    rw [extractName_eq_none_iff, List.dropWhile_eq_nil_iff]
    constructor
    · intro h c hc
      simpa using h c hc
    · intro h c hc
      simpa using h c hc
  · intro s t h
    unfold extractName at h
    rcases hrest : s.data.dropWhile (fun c => !isNameChar c) with _ | ⟨c, cs⟩
      <;> rw [hrest] at h
    · simp at h
    · simp only [Option.some.injEq] at h
      have hc : isNameChar c = true := by
        simpa using head_dropWhile_false hrest
      refine ⟨s.data.takeWhile (fun c => !isNameChar c),
        (c :: cs).dropWhile isNameChar, ?_, ?_, ?_, ?_, ?_⟩
      · rw [← h]
        show s.data = _ ++ (String.mk ((c :: cs).takeWhile isNameChar)).data ++ _
        rw [show (String.mk ((c :: cs).takeWhile isNameChar)).data =
          (c :: cs).takeWhile isNameChar from rfl, List.append_assoc,
          List.takeWhile_append_dropWhile, ← hrest,
          List.takeWhile_append_dropWhile]
      · intro x hx
        simpa using List.mem_takeWhile_imp hx
      · rw [← h]
        show (String.mk ((c :: cs).takeWhile isNameChar)).data ≠ []
        rw [show (String.mk ((c :: cs).takeWhile isNameChar)).data =
          (c :: cs).takeWhile isNameChar from rfl, List.takeWhile_cons_of_pos hc]
        exact List.cons_ne_nil _ _
      · intro x hx
        rw [← h] at hx
        exact List.mem_takeWhile_imp hx
      · intro x hx
        cases hpost : (c :: cs).dropWhile isNameChar with
        | nil =>
          rw [hpost] at hx
          exact Option.noConfusion hx
        | cons d ds =>
          rw [hpost] at hx
          injection hx with hx
          rw [← hx]
          exact head_dropWhile_false hpost

/-- Claim C5 witness: the amended characterization applied to concrete
requirement strings. -/
theorem c5_first_match_extraction_witness :
    (("x", (some "requests>=2.0").bind extractName) ∈
        extract_dependencies [⟨"x", "1.0", 0, none, some ["requests>=2.0"]⟩]) ∧
      extractName "$$$" = none ∧
      (∃ pre post, (">=foo2!").data = pre ++ ("foo2" : String).data ++ post ∧
        (∀ c ∈ pre, isNameChar c = false) ∧ ("foo2" : String).data ≠ [] ∧
        (∀ c ∈ ("foo2" : String).data, isNameChar c = true) ∧
        (∀ c, post.head? = some c → isNameChar c = false)) :=
  ⟨c5_first_match_extraction.1 [⟨"x", "1.0", 0, none, some ["requests>=2.0"]⟩]
      ("x", some "requests>=2.0") (by decide),
    (c5_first_match_extraction.2.1 "$$$").mpr (by decide),
    c5_first_match_extraction.2.2 ">=foo2!" "foo2" (by rfl)⟩

theorem toNat_ofNat_valid (n : Nat) (h : n.isValidChar) :
    (Char.ofNat n).toNat = n := by
  unfold Char.ofNat
  rw [dif_pos h]
  unfold Char.ofNatAux Char.toNat
  simp [UInt32.toNat]

theorem toLower_eq_self {c : Char} (h : ¬(c.toNat ≥ 65 ∧ c.toNat ≤ 90)) :
    c.toLower = c := by
  unfold Char.toLower
  exact if_neg h

theorem toLower_toNat_not_upper (c : Char) :
    ¬(c.toLower.toNat ≥ 65 ∧ c.toLower.toNat ≤ 90) := by
  unfold Char.toLower
  by_cases h : c.toNat ≥ 65 ∧ c.toNat ≤ 90
  · rw [if_pos h]
    have hval : (c.toNat + 32).isValidChar := by
      unfold Nat.isValidChar
      left
      omega
    rw [toNat_ofNat_valid _ hval]
    omega
  · rw [if_neg h]
    exact h

theorem toLower_toLower (c : Char) : c.toLower.toLower = c.toLower :=
  toLower_eq_self (toLower_toNat_not_upper c)

theorem collapse_cons_plain {c : Char} (h : isSepChar c = false) (l : List Char) :
    collapseSeps (c :: l) = c :: collapseSeps l := by
  cases l with
  | nil => simp [collapseSeps, h]
  | cons d ds => simp [collapseSeps, h]

theorem collapse_sep_sep {c d : Char} (hc : isSepChar c = true)
    (hd : isSepChar d = true) (l : List Char) :
    collapseSeps (c :: d :: l) = collapseSeps (d :: l) := by
  simp [collapseSeps, hc, hd]

theorem collapse_sep_plain {c d : Char} (hc : isSepChar c = true)
    (hd : isSepChar d = false) (l : List Char) :
    collapseSeps (c :: d :: l) = '-' :: collapseSeps (d :: l) := by
  simp [collapseSeps, hc, hd]

theorem collapsed_collapseSeps : ∀ l : List Char, Collapsed (collapseSeps l) := by
  intro l
  induction l with
  | nil => exact Collapsed.nil
  | cons c cs ih =>
    cases cs with
    | nil =>
      by_cases hc : isSepChar c
      · rw [show collapseSeps [c] = ['-'] by simp [collapseSeps, hc]]
        exact Collapsed.dash_nil
      · rw [show collapseSeps [c] = [c] by
          simp [collapseSeps, Bool.eq_false_iff.mpr hc]]
        exact Collapsed.cons_plain (Bool.eq_false_iff.mpr hc) Collapsed.nil
    | cons d ds =>
      by_cases hc : isSepChar c
      · by_cases hd : isSepChar d
        · rw [collapse_sep_sep hc hd]
          exact ih
        · have hd' : isSepChar d = false := Bool.eq_false_iff.mpr hd
          rw [collapse_sep_plain hc hd', collapse_cons_plain hd']
          rw [collapse_cons_plain hd'] at ih
          exact Collapsed.dash_cons hd' ih
      · have hc' : isSepChar c = false := Bool.eq_false_iff.mpr hc
        rw [collapse_cons_plain hc']
        exact Collapsed.cons_plain hc' ih

theorem collapseSeps_of_collapsed : ∀ {l : List Char}, Collapsed l →
    collapseSeps l = l := by
  intro l h
  induction h with
  | nil => rfl
  | cons_plain hc _ ih =>
    rw [collapse_cons_plain hc, ih]
  | dash_nil => rfl
  | dash_cons hc _ ih =>
    rw [collapse_sep_plain (show isSepChar '-' = true from rfl) hc, ih]

theorem mem_collapseSeps : ∀ {l : List Char} {x : Char},
    x ∈ collapseSeps l → x = '-' ∨ x ∈ l := by
  intro l
  induction l with
  | nil =>
    intro x hx
    simp [collapseSeps] at hx
  | cons c cs ih =>
    intro x hx
    cases cs with
    | nil =>
      by_cases hc : isSepChar c
      · rw [show collapseSeps [c] = ['-'] by simp [collapseSeps, hc]] at hx
        rw [List.mem_singleton] at hx
        exact Or.inl hx
      · rw [show collapseSeps [c] = [c] by
          simp [collapseSeps, Bool.eq_false_iff.mpr hc]] at hx
        exact Or.inr hx
    | cons d ds =>
      by_cases hc : isSepChar c
      · by_cases hd : isSepChar d
        · rw [collapse_sep_sep hc hd] at hx
          rcases ih hx with h | h
          · exact Or.inl h
          · exact Or.inr (List.mem_cons_of_mem _ h)
        · rw [collapse_sep_plain hc (Bool.eq_false_iff.mpr hd)] at hx
          rcases List.mem_cons.mp hx with rfl | hx
          · exact Or.inl rfl
          · rcases ih hx with h | h
            · exact Or.inl h
            · exact Or.inr (List.mem_cons_of_mem _ h)
      · rw [collapse_cons_plain (Bool.eq_false_iff.mpr hc)] at hx
        rcases List.mem_cons.mp hx with rfl | hx
        · exact Or.inr (List.mem_cons_self _ _)
        · rcases ih hx with h | h
          · exact Or.inl h
          · exact Or.inr (List.mem_cons_of_mem _ h)

theorem map_id_of_fixed {α : Type} {f : α → α} :
    ∀ {l : List α}, (∀ c ∈ l, f c = c) → l.map f = l := by
  intro l
  induction l with
  | nil =>
    intro _
    rfl
  | cons c cs ih =>
    intro h
    rw [List.map_cons, h c (List.mem_cons_self _ _),
      ih (fun x hx => h x (List.mem_cons_of_mem _ hx))]

theorem normalizePackageName_idem (s : String) :
    normalizePackageName (normalizePackageName s) = normalizePackageName s := by
  show String.mk (collapseSeps
      ((collapseSeps (s.data.map Char.toLower)).map Char.toLower)) = _
  have hfix : (collapseSeps (s.data.map Char.toLower)).map Char.toLower =
      collapseSeps (s.data.map Char.toLower) := by
    refine map_id_of_fixed ?_
    intro c hc
    rcases mem_collapseSeps hc with rfl | hc
    · rfl
    · obtain ⟨a, _, rfl⟩ := List.mem_map.mp hc
      exact toLower_toLower a
  rw [hfix, collapseSeps_of_collapsed (collapsed_collapseSeps _)]
  rfl

theorem mem_dedupFirstAux : ∀ {l seen : List String} {x : String},
    x ∈ dedupFirstAux seen l → x ∈ l := by
  intro l
  induction l with
  | nil =>
    intro seen x hx
    simp [dedupFirstAux] at hx
  | cons a as ih =>
    intro seen x hx
    unfold dedupFirstAux at hx
    by_cases ha : a ∈ seen
    · rw [if_pos ha] at hx
      exact List.mem_cons_of_mem _ (ih hx)
    · rw [if_neg ha] at hx
      rcases List.mem_cons.mp hx with rfl | hx
      · exact List.mem_cons_self _ _
      · exact List.mem_cons_of_mem _ (ih hx)

theorem mem_extractDepsOfMeta {m : PkgMeta} {x : String}
    (hx : x ∈ extractDepsOfMeta m) :
    ∃ y, x = extractPackageNameFromRequirement y := by
  unfold extractDepsOfMeta at hx
  cases hreq : m.requires_dist with
  | none =>
    rw [hreq] at hx
    simp at hx
  | some reqs =>
    rw [hreq] at hx
    have hx' := mem_dedupFirstAux hx
    have hx'' := List.mem_of_mem_filter hx'
    obtain ⟨y, _, rfl⟩ := List.mem_map.mp hx''
    exact ⟨y, rfl⟩

theorem hasNode_inner_fold :
    ∀ (deps : List String) (acc : DiGraph) (nn x : String),
      hasNode (deps.foldl (fun net dep => addEdge (addNode net dep) nn dep) acc) x = true →
      hasNode acc x = true ∨ x = nn ∨ x ∈ deps := by
  intro deps
  induction deps with
  | nil =>
    intro acc nn x h
    exact Or.inl h
  | cons d ds ih =>
    intro acc nn x h
    rw [List.foldl_cons] at h
    rcases ih _ nn x h with h | h | h
    · rcases (hasNode_addEdge_iff _ _ _ _).mp h with h | h | h
      · exact Or.inr (Or.inl h)
      · rw [h]
        exact Or.inr (Or.inr (List.mem_cons_self _ _))
      · rcases (hasNode_addNode_iff _ _ _).mp h with h | h
        · rw [h]
          exact Or.inr (Or.inr (List.mem_cons_self _ _))
        · exact Or.inl h
    · exact Or.inr (Or.inl h)
    · exact Or.inr (Or.inr (List.mem_cons_of_mem _ h))

theorem addMeta_normalized {net : DiGraph} {m : PkgMeta} {x : String}
    (h : hasNode (addMetaToGraph net m) x = true) :
    hasNode net x = true ∨ normalizePackageName x = x := by
  obtain ⟨nameOpt, reqs⟩ := m
  cases nameOpt with
  | none => exact Or.inl h
  | some pname =>
    have h' : hasNode (if pname = "" then net
        else (extractDepsOfMeta ⟨some pname, reqs⟩).foldl
          (fun net dep => addEdge (addNode net dep) (normalizePackageName pname) dep)
          (addNode net (normalizePackageName pname))) x = true := h
    by_cases hp : pname = ""
    · rw [if_pos hp] at h'
      exact Or.inl h'
    · rw [if_neg hp] at h'
      rcases hasNode_inner_fold _ _ _ _ h' with h | h | h
      · rcases (hasNode_addNode_iff _ _ _).mp h with h | h
        · rw [h]
          exact Or.inr (normalizePackageName_idem pname)
        · exact Or.inl h
      · rw [h]
        exact Or.inr (normalizePackageName_idem pname)
      · obtain ⟨y, rfl⟩ := mem_extractDepsOfMeta h
        refine Or.inr ?_
        show normalizePackageName (normalizePackageName _) = _
        exact normalizePackageName_idem _

/-- Claim C10: package-name normalization is idempotent — normalizing twice
equals normalizing once — and consequently every node name stored in a graph
built by create_dependency_graph is a fixed point of normalization. -/
theorem c10_normalization_idempotent :
    (∀ s : String, normalizePackageName (normalizePackageName s) =
        normalizePackageName s) ∧
      ∀ (metas : List PkgMeta) (n : String),
        hasNode (create_dependency_graph metas) n = true →
        normalizePackageName n = n := by
  refine ⟨normalizePackageName_idem, ?_⟩
  have hfold : ∀ (ms : List PkgMeta) (acc : DiGraph),
      (∀ x, hasNode acc x = true → normalizePackageName x = x) →
      ∀ x, hasNode (ms.foldl addMetaToGraph acc) x = true →
        normalizePackageName x = x := by
    intro ms
    induction ms with
    | nil =>
      intro acc hinv x hx
      exact hinv x hx
    | cons m ms ih =>
      intro acc hinv x hx
      rw [List.foldl_cons] at hx
      refine ih _ ?_ x hx
      intro y hy
      rcases addMeta_normalized hy with h | h
      · exact hinv y h
      · exact h
  intro metas n hn
  refine hfold metas ⟨[]⟩ ?_ n hn
  intro x hx
  simp [hasNode] at hx

/-- Claim C10 witness: idempotence at the concrete name A_b.C, and the node
a-b of a concrete one-record graph is a normalization fixed point. -/
theorem c10_normalization_idempotent_witness :
    normalizePackageName (normalizePackageName "A_b.C") =
        normalizePackageName "A_b.C" ∧
      normalizePackageName "a-b" = "a-b" :=
  ⟨c10_normalization_idempotent.1 "A_b.C",
    c10_normalization_idempotent.2 [⟨some "A_b", some ["c>=1"]⟩] "a-b" (by decide)⟩

end PyPI

